import Mathlib

/-!
Verification of the random-walk Metropolis-Hastings sampler of
`exercise_random_walk_MCMC` against its specification.

The embedding translates the notebook's core cells:
* `increasing_sinus_model` — the forward model `w[0]*sin(w[1]*x*pi/2) + w[1]*x`;
* `fun_LL` — the unnormalized Gaussian likelihood
  `np.exp(-1/2/sigma_y**2 * np.sum((y_noisy - model(x_data, w))**2))`,
  parametrized here by the observation set `(x, y)` of size `m` and the noise
  standard deviation `σ` that the Python closure captures;
* the MCMC loop — proposal `w_star = w_n[n] + R @ z` (the two `np.transpose`
  calls in the source are identities on 1-D arrays), ratio
  `r = fun_LL(w_star)/fun_LL(w_n[n])`, acceptance `alpha = min(1, r)`, and the
  accept/reject branch writing slot `n+1` of the trajectory array `w_n`.

Floating-point escape hatches of the source are modelled explicitly where a
claim depends on them: `fun_LL` returns a numpy `float64`, so the division in
`r` follows IEEE semantics (`a/0 = inf` for `a > 0`, `0/0 = nan`, never an
exception), captured by `pyDiv`; CPython's `min(1, r)` keeps its first
argument when the comparison `r < 1` is false, so `min(1, nan) = 1` and
`min(1, inf) = 1`, captured by `pymin1`.  Since exact real arithmetic cannot
underflow, theorems about underflow quantify over an arbitrary nonnegative
likelihood function `f` standing for the float-valued `fun_LL`.

The module-level random source (`random.gauss` / `random.random` sharing the
global Mersenne-Twister instance) is modelled by `RNG`: a single stream of
uniform draws, a position, and the `gauss_next` cache that CPython's
`random.gauss` keeps.
-/

noncomputable section

open scoped Classical

/-- A parameter vector of the fixed dimension `dim = 2` of the notebook. -/
abbrev Vec : Type := Fin 2 → ℝ

/-- The forward model: `y = w[0]*np.sin(w[1]*x*(np.pi/2)) + w[1]*x`. -/
def increasing_sinus_model (x : ℝ) (w : Vec) : ℝ :=
  w 0 * Real.sin (w 1 * x * (Real.pi / 2)) + w 1 * x

/-- The likelihood evaluator
`fun_LL(w) = np.exp(-1/2/sigma_y**2*np.sum((y_noisy - increasing_sinus_model(x_data, w))**2))`,
with the observation set `(x, y)` of size `m` and noise deviation `σ` that the
Python closure captures from the enclosing scope. -/
def fun_LL {m : ℕ} (x y : Fin m → ℝ) (σ : ℝ) (w : Vec) : ℝ :=
  Real.exp (-1 / 2 / σ ^ 2 * ∑ i, (y i - increasing_sinus_model (x i) w) ^ 2)

/-- `scipy.linalg.cholesky` for a 2×2 matrix.  Scipy returns the
upper-triangular factor `U` with `A = Uᵀ U` (its `lower` flag defaults to
`False`): `U = [[√a, b/√a], [0, √(c - b²/a)]]` for `A = [[a, b], [b, c]]`. -/
def cholesky2 (A : Matrix (Fin 2) (Fin 2) ℝ) : Matrix (Fin 2) (Fin 2) ℝ :=
  ![![Real.sqrt (A 0 0), A 0 1 / Real.sqrt (A 0 0)],
    ![0, Real.sqrt (A 1 1 - A 0 1 ^ 2 / A 0 0)]]

/-- The proposal covariance of the notebook: `np.array([[0.05, 0.], [0., 0.0001]])`. -/
def proposal_cov : Matrix (Fin 2) (Fin 2) ℝ := ![![0.05, 0], ![0, 0.0001]]

/-- `R = linalg.cholesky(proposal_cov)`, computed once before the loop. -/
def R : Matrix (Fin 2) (Fin 2) ℝ := cholesky2 proposal_cov

/-- The proposal of one iteration:
`w_star = w_n[n,:] + np.transpose(np.matmul(R, np.transpose(mv_norm)))`.
`mv_norm` is 1-D, so both `np.transpose` calls are identities and the line is
`w + R @ z`. -/
def w_star (Rm : Matrix (Fin 2) (Fin 2) ℝ) (w z : Vec) : Vec :=
  w + Rm.mulVec z

/-- Result of the numpy `float64` division `a / b` for finite operands with
`a, b ≥ 0` (likelihood values): a finite quotient when `b ≠ 0`, `inf` when
`b = 0 < a`, and `nan` for `0/0`.  Numpy emits a warning but no exception. -/
inductive FloatVal where
  | fin (q : ℝ)
  | pinf
  | nan

/-- Numpy division of two nonnegative finite floats, as used in
`r = fun_LL(w_star)/fun_LL(w_n[n,:])`. -/
def pyDiv (a b : ℝ) : FloatVal :=
  if b = 0 then (if a = 0 then FloatVal.nan else FloatVal.pinf) else FloatVal.fin (a / b)

/-- CPython's builtin `min(1, r)`: it keeps the first argument `1` unless the
comparison `r < 1` holds, hence `min(1, nan) = 1` and `min(1, inf) = 1`. -/
def pymin1 : FloatVal → ℝ
  | FloatVal.fin q => if q < 1 then q else 1
  | FloatVal.pinf => 1
  | FloatVal.nan => 1

/-- The acceptance probability of one iteration:
`alpha = min(1, fun_LL(w_star)/fun_LL(w_n[n,:]))`, for a likelihood
function `f`. -/
def alpha (f : Vec → ℝ) (w wstar : Vec) : ℝ :=
  pymin1 (pyDiv (f wstar) (f w))

/-- One iteration of the MCMC loop: accept `w_star` when
`random.random() < alpha`, otherwise repeat the current state.  `z` is the
vector `mv_norm` of standard-normal draws and `u` the uniform draw. -/
def mhStep (f : Vec → ℝ) (Rm : Matrix (Fin 2) (Fin 2) ℝ) (w z : Vec) (u : ℝ) : Vec :=
  if u < alpha f w (w_star Rm w z) then w_star Rm w z else w

/-- The chain state `w_n[n, :]`: the initial state at index `0`, and each
subsequent slot produced from the previous one by `mhStep` with the n-th
normal draws `zs n` and uniform draw `us n`. -/
def w_seq (f : Vec → ℝ) (Rm : Matrix (Fin 2) (Fin 2) ℝ) (w0 : Vec)
    (zs : ℕ → Vec) (us : ℕ → ℝ) : ℕ → Vec
  | 0 => w0
  | n + 1 => mhStep f Rm (w_seq f Rm w0 zs us n) (zs n) (us n)

/-- The trajectory array `w_n` after running `N` iterations: the
`np.zeros((n_it+1, dim))` array whose slot `n` holds the chain state before
the n-th proposal. -/
def w_n (f : Vec → ℝ) (Rm : Matrix (Fin 2) (Fin 2) ℝ) (w0 : Vec)
    (zs : ℕ → Vec) (us : ℕ → ℝ) (N : ℕ) : List Vec :=
  (List.range (N + 1)).map (w_seq f Rm w0 zs us)

/-- The global `random`-module generator: one stream of uniform draws in
`[0, 1)`, the next unread position, and the `gauss_next` cache of
CPython's `random.gauss`. -/
structure RNG where
  stream : ℕ → ℝ
  pos : ℕ
  cache : Option ℝ

/-- `random.random()`: return the next uniform of the shared stream. -/
def randomRandom (g : RNG) : ℝ × RNG :=
  (g.stream g.pos, ⟨g.stream, g.pos + 1, g.cache⟩)

/-- `random.gauss(mu, sigma)`: CPython draws two uniforms from the shared
stream, returns `mu + cos(2π·u1)·√(-2·ln(1-u2))·sigma` and caches the
matching sine value for the next call; a call finding the cache full consumes
no uniforms. -/
def randomGauss (mu sigma : ℝ) (g : RNG) : ℝ × RNG :=
  match g.cache with
  | some z => (mu + z * sigma, ⟨g.stream, g.pos, none⟩)
  | none =>
    let r1 := randomRandom g
    let r2 := randomRandom r1.2
    let x2pi := r1.1 * (2 * Real.pi)
    let g2rad := Real.sqrt (-2 * Real.log (1 - r2.1))
    (mu + Real.cos x2pi * g2rad * sigma,
      ⟨g.stream, r2.2.pos, some (Real.sin x2pi * g2rad)⟩)

/-- The random draws of one loop iteration, in source order: `dim = 2` calls
`random.gauss(0, 1)` filling `mv_norm`, then one call `random.random()` for
the accept/reject test. -/
def iterDraws (g : RNG) : (Vec × ℝ) × RNG :=
  let r1 := randomGauss 0 1 g
  let r2 := randomGauss 0 1 r1.2
  let r3 := randomRandom r2.2
  ((![r1.1, r2.1], r3.1), r3.2)

/-- The likelihood is a positive real: `exp` never vanishes in exact
arithmetic. -/
lemma fun_LL_pos {m : ℕ} (x y : Fin m → ℝ) (σ : ℝ) (w : Vec) :
    0 < fun_LL x y σ w := by
  unfold fun_LL
  exact Real.exp_pos _

/-- Division with a nonzero denominator is the finite quotient. -/
lemma pyDiv_of_ne (a b : ℝ) (hb : b ≠ 0) : pyDiv a b = FloatVal.fin (a / b) := by
  simp [pyDiv, hb]

/-- On a finite value, CPython's `min(1, q)` is the real minimum. -/
lemma pymin1_fin (q : ℝ) : pymin1 (FloatVal.fin q) = min 1 q := by
  rcases lt_or_le q 1 with h | h
  · simp [pymin1, h, min_eq_right h.le]
  · simp [pymin1, not_lt.mpr h, min_eq_left h]

/-- `alpha` never exceeds one, whatever the ratio evaluates to. -/
lemma alpha_le_one (f : Vec → ℝ) (w ws : Vec) : alpha f w ws ≤ 1 := by
  unfold alpha
  cases hp : pyDiv (f ws) (f w) with
  | fin q =>
      rw [pymin1_fin]
      exact min_le_left _ _
  | pinf => simp [pymin1]
  | nan => simp [pymin1]

/-- One unrolling of the trajectory: running one more iteration appends
exactly one new slot. -/
lemma w_n_succ (f : Vec → ℝ) (Rm : Matrix (Fin 2) (Fin 2) ℝ) (w0 : Vec)
    (zs : ℕ → Vec) (us : ℕ → ℝ) (n : ℕ) :
    w_n f Rm w0 zs us (n + 1) = w_n f Rm w0 zs us n ++ [w_seq f Rm w0 zs us (n + 1)] := by
  unfold w_n
  rw [List.range_succ, List.map_append, List.map_singleton]

/-- C1: for every `n_iterations ≥ 0` the trajectory has exactly
`n_iterations + 1` entries, its entry at index 0 is the initial
ParameterVector, and each iteration appends exactly one entry which is either
the proposal `w_star` or a repeat of the current state — no slot is skipped
or discarded. -/
theorem c1_trajectory_length (f : Vec → ℝ) (Rm : Matrix (Fin 2) (Fin 2) ℝ)
    (w0 : Vec) (zs : ℕ → Vec) (us : ℕ → ℝ) (N : ℕ) :
    (w_n f Rm w0 zs us N).length = N + 1 ∧
    (w_n f Rm w0 zs us N).head? = some w0 ∧
    (∀ n : ℕ,
      w_n f Rm w0 zs us (n + 1) = w_n f Rm w0 zs us n ++ [w_seq f Rm w0 zs us (n + 1)] ∧
      (w_seq f Rm w0 zs us (n + 1) = w_star Rm (w_seq f Rm w0 zs us n) (zs n) ∨
       w_seq f Rm w0 zs us (n + 1) = w_seq f Rm w0 zs us n)) := by
  refine ⟨by simp [w_n], ?_, fun n => ⟨w_n_succ f Rm w0 zs us n, ?_⟩⟩
  · unfold w_n
    rw [List.range_succ_eq_map]
    simp [w_seq]
  · by_cases h : us n < alpha f (w_seq f Rm w0 zs us n) (w_star Rm (w_seq f Rm w0 zs us n) (zs n))
    · left
      simp [w_seq, mhStep, if_pos h]
    · right
      simp [w_seq, mhStep, if_neg h]

/-- C2: on any finite real parameter vector the likelihood evaluator is the
total function `exp(-1/(2σ²)·Σᵢ (yᵢ - model(xᵢ, w))²)` and its value is
nonnegative. -/
theorem c2_likelihood_formula {m : ℕ} (x y : Fin m → ℝ) (σ : ℝ) (w : Vec) :
    fun_LL x y σ w =
      Real.exp (-(1 / (2 * σ ^ 2)) * ∑ i, (y i - increasing_sinus_model (x i) w) ^ 2) ∧
    0 ≤ fun_LL x y σ w := by
  constructor
  · unfold fun_LL
    congr 1
    ring
  · exact (fun_LL_pos x y σ w).le

/-- C3: the proposal step adds `R · z` to the current state, where `R`, the
factor the code computes once from `proposal_cov`, is lower-triangular (its
only off-diagonal entry above the diagonal vanishes, the covariance being
diagonal) and satisfies `R · Rᵀ = proposal_cov`, so the proposal carries the
supplied covariance and is symmetric around the current state. -/
theorem c3_proposal_cholesky (w z : Vec) :
    w_star R w z = w + R.mulVec z ∧
    R 1 0 = 0 ∧ R 0 1 = 0 ∧
    R * R.transpose = proposal_cov := by
  have h20 : (Real.sqrt 20)⁻¹ * (Real.sqrt 20)⁻¹ = 1 / 20 := by
    rw [← mul_inv, Real.mul_self_sqrt (by norm_num : (0 : ℝ) ≤ 20)]
    norm_num
  have h10000 : (Real.sqrt 10000)⁻¹ * (Real.sqrt 10000)⁻¹ = 1 / 10000 := by
    rw [← mul_inv, Real.mul_self_sqrt (by norm_num : (0 : ℝ) ≤ 10000)]
    norm_num
  refine ⟨rfl, rfl, ?_, ?_⟩
  · simp [R, cholesky2, proposal_cov]
  · ext i j
    fin_cases i <;> fin_cases j <;>
      simp [R, cholesky2, proposal_cov, Matrix.mul_apply, Fin.sum_univ_two,
        Matrix.transpose_apply] <;>
      norm_num [h20, h10000]

/-- C4: at every iteration of the chain the acceptance probability is
`min(1, fun_LL(w_star)/fun_LL(w_n[n]))` and lies in `[0, 1]`. -/
theorem c4_acceptance_bound {m : ℕ} (x y : Fin m → ℝ) (σ : ℝ)
    (Rm : Matrix (Fin 2) (Fin 2) ℝ) (w0 : Vec) (zs : ℕ → Vec) (us : ℕ → ℝ) (n : ℕ) :
    alpha (fun_LL x y σ) (w_seq (fun_LL x y σ) Rm w0 zs us n)
        (w_star Rm (w_seq (fun_LL x y σ) Rm w0 zs us n) (zs n)) =
      min 1 (fun_LL x y σ (w_star Rm (w_seq (fun_LL x y σ) Rm w0 zs us n) (zs n)) /
        fun_LL x y σ (w_seq (fun_LL x y σ) Rm w0 zs us n)) ∧
    0 ≤ alpha (fun_LL x y σ) (w_seq (fun_LL x y σ) Rm w0 zs us n)
        (w_star Rm (w_seq (fun_LL x y σ) Rm w0 zs us n) (zs n)) ∧
    alpha (fun_LL x y σ) (w_seq (fun_LL x y σ) Rm w0 zs us n)
        (w_star Rm (w_seq (fun_LL x y σ) Rm w0 zs us n) (zs n)) ≤ 1 := by
  have hwc := fun_LL_pos x y σ (w_seq (fun_LL x y σ) Rm w0 zs us n)
  have hws := fun_LL_pos x y σ (w_star Rm (w_seq (fun_LL x y σ) Rm w0 zs us n) (zs n))
  have heq : alpha (fun_LL x y σ) (w_seq (fun_LL x y σ) Rm w0 zs us n)
      (w_star Rm (w_seq (fun_LL x y σ) Rm w0 zs us n) (zs n)) =
      min 1 (fun_LL x y σ (w_star Rm (w_seq (fun_LL x y σ) Rm w0 zs us n) (zs n)) /
        fun_LL x y σ (w_seq (fun_LL x y σ) Rm w0 zs us n)) := by
    unfold alpha
    rw [pyDiv_of_ne _ _ hwc.ne', pymin1_fin]
  refine ⟨heq, ?_, ?_⟩
  · rw [heq]
    exact le_min zero_le_one (div_nonneg hws.le hwc.le)
  · rw [heq]
    exact min_le_left _ _

/-- C5: whenever the proposal is at least as plausible as the current state,
the acceptance probability is exactly 1 and any uniform draw below 1 accepts,
so the step deterministically moves to the candidate. -/
theorem c5_monotone_accept {m : ℕ} (x y : Fin m → ℝ) (σ : ℝ)
    (Rm : Matrix (Fin 2) (Fin 2) ℝ) (w z : Vec) (u : ℝ)
    (h : fun_LL x y σ w ≤ fun_LL x y σ (w_star Rm w z)) (hu : u < 1) :
    alpha (fun_LL x y σ) w (w_star Rm w z) = 1 ∧
    mhStep (fun_LL x y σ) Rm w z u = w_star Rm w z := by
  have hwc := fun_LL_pos x y σ w
  have hone : (1 : ℝ) ≤ fun_LL x y σ (w_star Rm w z) / fun_LL x y σ w :=
    (one_le_div hwc).mpr h
  have ha : alpha (fun_LL x y σ) w (w_star Rm w z) = 1 := by
    unfold alpha
    rw [pyDiv_of_ne _ _ hwc.ne', pymin1_fin, min_eq_left hone]
  refine ⟨ha, ?_⟩
  unfold mhStep
  rw [if_pos]
  rw [ha]
  exact hu

/-- Witness for C5 at a concrete input: empty observation set, zero proposal
matrix and zero draw, where the candidate coincides with the current state. -/
theorem c5_monotone_accept_witness :
    fun_LL (Fin.elim0 : Fin 0 → ℝ) Fin.elim0 1 0 ≤
      fun_LL (Fin.elim0 : Fin 0 → ℝ) Fin.elim0 1 (w_star 0 0 0) ∧
    (0 : ℝ) < 1 ∧
    (alpha (fun_LL (Fin.elim0 : Fin 0 → ℝ) Fin.elim0 1) 0 (w_star 0 0 0) = 1 ∧
      mhStep (fun_LL (Fin.elim0 : Fin 0 → ℝ) Fin.elim0 1) 0 0 0 0 = w_star 0 0 0) :=
  ⟨by simp [w_star], zero_lt_one,
    c5_monotone_accept Fin.elim0 Fin.elim0 1 0 0 0 0 (by simp [w_star]) zero_lt_one⟩

/-- C6: a rejected step repeats the current state exactly in the next slot,
and running one more iteration leaves all previously written slots `0..n`
unchanged: the first `n+1` entries of the new trajectory are the old
trajectory. -/
theorem c6_rejection_frame (f : Vec → ℝ) (Rm : Matrix (Fin 2) (Fin 2) ℝ)
    (w0 : Vec) (zs : ℕ → Vec) (us : ℕ → ℝ) (n : ℕ)
    (hrej : ¬ us n < alpha f (w_seq f Rm w0 zs us n)
      (w_star Rm (w_seq f Rm w0 zs us n) (zs n))) :
    w_seq f Rm w0 zs us (n + 1) = w_seq f Rm w0 zs us n ∧
    (w_n f Rm w0 zs us (n + 1)).take (n + 1) = w_n f Rm w0 zs us n := by
  constructor
  · simp [w_seq, mhStep, if_neg hrej]
  · have hlen : (w_n f Rm w0 zs us n).length = n + 1 := by simp [w_n]
    rw [w_n_succ, ← hlen, List.take_left]

/-- Witness for C6 at a concrete input: the constant-zero likelihood gives the
`0/0` ratio, `alpha = 1`, and the uniform draw `1` rejects since `¬ 1 < 1`. -/
theorem c6_rejection_frame_witness :
    (¬ (fun _ : ℕ => (1 : ℝ)) 0 < alpha (fun _ => (0 : ℝ))
      (w_seq (fun _ => (0 : ℝ)) 0 0 (fun _ => 0) (fun _ => (1 : ℝ)) 0)
      (w_star 0 (w_seq (fun _ => (0 : ℝ)) 0 0 (fun _ => 0) (fun _ => (1 : ℝ)) 0) 0)) ∧
    (w_seq (fun _ => (0 : ℝ)) 0 0 (fun _ => 0) (fun _ => (1 : ℝ)) 1 =
      w_seq (fun _ => (0 : ℝ)) 0 0 (fun _ => 0) (fun _ => (1 : ℝ)) 0 ∧
    (w_n (fun _ => (0 : ℝ)) 0 0 (fun _ => 0) (fun _ => (1 : ℝ)) 1).take 1 =
      w_n (fun _ => (0 : ℝ)) 0 0 (fun _ => 0) (fun _ => (1 : ℝ)) 0) := by
  have hrej : ¬ (fun _ : ℕ => (1 : ℝ)) 0 < alpha (fun _ => (0 : ℝ))
      (w_seq (fun _ => (0 : ℝ)) 0 0 (fun _ => 0) (fun _ => (1 : ℝ)) 0)
      (w_star 0 (w_seq (fun _ => (0 : ℝ)) 0 0 (fun _ => 0) (fun _ => (1 : ℝ)) 0) 0) := by
    simp [alpha, pyDiv, pymin1]
  exact ⟨hrej, c6_rejection_frame (fun _ => (0 : ℝ)) 0 0 (fun _ => 0) (fun _ => (1 : ℝ)) 0 hrej⟩

/-- C7: when the proposal's (float-valued) likelihood has underflowed to
exactly zero while the current state's likelihood is positive, the ratio is
the finite value `0`, `alpha = 0`, and no uniform draw `u ≥ 0` is below it,
so the step repeats the current state.  `f` stands for the float-valued
`fun_LL`, which can underflow to `0` unlike its exact-real counterpart. -/
theorem c7_underflow_autoreject (f : Vec → ℝ) (Rm : Matrix (Fin 2) (Fin 2) ℝ)
    (w z : Vec) (u : ℝ)
    (h0 : f (w_star Rm w z) = 0) (hpos : 0 < f w) (hu : 0 ≤ u) :
    pyDiv (f (w_star Rm w z)) (f w) = FloatVal.fin 0 ∧
    alpha f w (w_star Rm w z) = 0 ∧
    mhStep f Rm w z u = w := by
  have hr : pyDiv (f (w_star Rm w z)) (f w) = FloatVal.fin 0 := by
    rw [pyDiv_of_ne _ _ hpos.ne', h0, zero_div]
  have ha : alpha f w (w_star Rm w z) = 0 := by
    unfold alpha
    rw [hr, pymin1_fin, min_eq_right zero_le_one]
  refine ⟨hr, ha, ?_⟩
  unfold mhStep
  rw [ha, if_neg (not_lt.mpr hu)]

/-- Witness for C7 at a concrete input: the likelihood is `1` at the zero
vector and `0` elsewhere; with the identity proposal matrix and the all-ones
draw the candidate leaves the support, so the step rejects it. -/
theorem c7_underflow_autoreject_witness :
    (fun v : Vec => if v 0 = 0 then (1 : ℝ) else 0)
        (w_star 1 0 (fun _ => 1)) = 0 ∧
    (0 : ℝ) < (fun v : Vec => if v 0 = 0 then (1 : ℝ) else 0) 0 ∧
    (0 : ℝ) ≤ 0 ∧
    (pyDiv ((fun v : Vec => if v 0 = 0 then (1 : ℝ) else 0) (w_star 1 0 (fun _ => 1)))
        ((fun v : Vec => if v 0 = 0 then (1 : ℝ) else 0) 0) = FloatVal.fin 0 ∧
      alpha (fun v : Vec => if v 0 = 0 then (1 : ℝ) else 0) 0 (w_star 1 0 (fun _ => 1)) = 0 ∧
      mhStep (fun v : Vec => if v 0 = 0 then (1 : ℝ) else 0) 1 0 (fun _ => 1) 0 = 0) := by
  have h0 : (fun v : Vec => if v 0 = 0 then (1 : ℝ) else 0)
      (w_star 1 0 (fun _ => 1)) = 0 := by
    simp [w_star, Matrix.one_mulVec]
  have hpos : (0 : ℝ) < (fun v : Vec => if v 0 = 0 then (1 : ℝ) else 0) 0 := by
    simp
  exact ⟨h0, hpos, le_refl 0,
    c7_underflow_autoreject (fun v : Vec => if v 0 = 0 then (1 : ℝ) else 0)
      1 0 (fun _ => 1) 0 h0 hpos (le_refl 0)⟩

/-- C10: if the (float-valued) likelihood of the current state is exactly
zero, the ratio is `nan` (0/0) or `inf` (positive/0), CPython's `min(1, r)`
evaluates to `1` in either case, and every uniform draw in `[0, 1)` is below
it — the step raises no error and deterministically accepts the proposal. -/
theorem c10_zero_current_accepts (f : Vec → ℝ) (Rm : Matrix (Fin 2) (Fin 2) ℝ)
    (w z : Vec) (u : ℝ)
    (hzero : f w = 0) (_hu0 : 0 ≤ u) (hu1 : u < 1) :
    alpha f w (w_star Rm w z) = 1 ∧
    mhStep f Rm w z u = w_star Rm w z := by
  have ha : alpha f w (w_star Rm w z) = 1 := by
    by_cases hws : f (w_star Rm w z) = 0 <;>
      simp [alpha, pyDiv, pymin1, hzero, hws]
  refine ⟨ha, ?_⟩
  unfold mhStep
  rw [ha, if_pos hu1]

/-- Witness for C10 at a concrete input: the constant-zero likelihood, zero
proposal matrix, zero draws. -/
theorem c10_zero_current_accepts_witness :
    (fun _ : Vec => (0 : ℝ)) 0 = 0 ∧
    (0 : ℝ) ≤ 0 ∧
    (0 : ℝ) < 1 ∧
    (alpha (fun _ : Vec => (0 : ℝ)) 0 (w_star 0 0 0) = 1 ∧
      mhStep (fun _ : Vec => (0 : ℝ)) 0 0 0 0 = w_star 0 0 0) :=
  ⟨rfl, le_refl 0, zero_lt_one,
    c10_zero_current_accepts (fun _ : Vec => (0 : ℝ)) 0 0 0 0 rfl (le_refl 0) zero_lt_one⟩

/-- C8 counterexample: with a current state of likelihood exactly zero the
ratio is `0/0` (`nan`), yet the sampler surfaces no error: `alpha` evaluates
to the ordinary value `1` and a 2-iteration run still completes with the full
3-entry trajectory — the chain silently continues instead of terminating. -/
theorem c8_counterexample :
    alpha (fun _ : Vec => (0 : ℝ)) 0 0 = 1 ∧
    (w_n (fun _ : Vec => (0 : ℝ)) 0 0 (fun _ => 0) (fun _ => 0) 2).length = 3 := by
  constructor
  · simp [alpha, pyDiv, pymin1]
  · simp [w_n]

/-- C8 as amended: the loop contains no detection of a zero or non-finite
likelihood denominator.  Whatever state the chain is in — including a
degenerate one of likelihood zero — the run always completes all `N`
iterations with a full `N + 1`-entry trajectory, and at a degenerate state
the acceptance probability silently evaluates to `1`. -/
theorem c8_no_error_detection (f : Vec → ℝ) (Rm : Matrix (Fin 2) (Fin 2) ℝ)
    (w0 : Vec) (zs : ℕ → Vec) (us : ℕ → ℝ) (N n : ℕ)
    (hdeg : f (w_seq f Rm w0 zs us n) = 0) :
    (w_n f Rm w0 zs us N).length = N + 1 ∧
    alpha f (w_seq f Rm w0 zs us n)
      (w_star Rm (w_seq f Rm w0 zs us n) (zs n)) = 1 := by
  constructor
  · simp [w_n]
  · by_cases hws : f (w_star Rm (w_seq f Rm w0 zs us n) (zs n)) = 0 <;>
      simp [alpha, pyDiv, pymin1, hdeg, hws]

/-- Witness for the amended C8 at a concrete input: the constant-zero
likelihood and a 1-iteration run. -/
theorem c8_no_error_detection_witness :
    (fun _ : Vec => (0 : ℝ)) (w_seq (fun _ : Vec => (0 : ℝ)) 0 0 (fun _ => 0) (fun _ => 0) 0) = 0 ∧
    ((w_n (fun _ : Vec => (0 : ℝ)) 0 0 (fun _ => 0) (fun _ => 0) 1).length = 1 + 1 ∧
      alpha (fun _ : Vec => (0 : ℝ)) (w_seq (fun _ : Vec => (0 : ℝ)) 0 0 (fun _ => 0) (fun _ => 0) 0)
        (w_star 0 (w_seq (fun _ : Vec => (0 : ℝ)) 0 0 (fun _ => 0) (fun _ => 0) 0) ((fun _ => 0) 0)) = 1) :=
  ⟨rfl, c8_no_error_detection (fun _ : Vec => (0 : ℝ)) 0 0 (fun _ => 0) (fun _ => 0) 1 0 rfl⟩

/-- C9 counterexample: in one loop iteration started at position 0 of the
shared generator, the two `random.gauss(0, 1)` calls consume positions 0 and
1 of the stream and the accept/reject call `random.random()` then returns the
value at position 2 of that same stream, leaving the shared position at 3 —
the uniform draw is not taken from a stream separate from the one that
supplied the normal draws.  With the stream `k ↦ k` the accept draw is `2`,
the third value of the single shared stream, not the first value `0` an
independent fresh source would have produced. -/
theorem c9_counterexample :
    (iterDraws ⟨fun k => (k : ℝ), 0, none⟩).1.2 = ((fun k => (k : ℝ)) 2 : ℝ) ∧
    (iterDraws ⟨fun k => (k : ℝ), 0, none⟩).1.2 ≠ ((fun k => (k : ℝ)) 0 : ℝ) ∧
    (iterDraws ⟨fun k => (k : ℝ), 0, none⟩).2.pos = 3 := by
  refine ⟨rfl, ?_, rfl⟩
  have h2 : (iterDraws ⟨fun k => (k : ℝ), 0, none⟩).1.2 = ((2 : ℕ) : ℝ) := rfl
  rw [h2]
  norm_num

/-- C9 as amended: all three random draws of one iteration are sequential
reads of the one global generator.  Starting from any shared state
`⟨s, p, none⟩`, the two normal draws are computed from the stream values at
positions `p` and `p + 1` and the accept/reject uniform is the value of the
same stream `s` at position `p + 2`, the generator position advancing from
`p` to `p + 3` through the three calls. -/
theorem c9_shared_stream (s : ℕ → ℝ) (p : ℕ) :
    (iterDraws ⟨s, p, none⟩).1.1 0 =
      0 + Real.cos (s p * (2 * Real.pi)) * Real.sqrt (-2 * Real.log (1 - s (p + 1))) * 1 ∧
    (iterDraws ⟨s, p, none⟩).1.1 1 =
      0 + Real.sin (s p * (2 * Real.pi)) * Real.sqrt (-2 * Real.log (1 - s (p + 1))) * 1 ∧
    (iterDraws ⟨s, p, none⟩).1.2 = s (p + 2) ∧
    (iterDraws ⟨s, p, none⟩).2 = ⟨s, p + 3, none⟩ := by
  refine ⟨rfl, rfl, rfl, ?_⟩
  show RNG.mk s (p + 1 + 1 + 1) none = RNG.mk s (p + 3) none
  rfl
